import Mathlib

/-!
Shallow embedding of `access_audit.py` (system access auditing and logging).

Modelling conventions:
* A calendar date (`datetime.date`) is its ordinal day number, an `Int`;
  Python's `timedelta(1)` is `+ 1`.
* A timestamp (seconds since the epoch, a Python float) is an `Int` counting
  microseconds since the epoch, which represents every value occurring in the
  program exactly (`entry.sec + entry.usec * .000001` and parsed log floats);
  `date.fromtimestamp` is floor division by the microseconds in a day (local
  time assumed UTC-aligned, so midnights fall on multiples of that constant).
* Python `dict`s keyed by date are association lists in insertion order;
  Python's stable `sorted` / `list.sort` is a stable insertion sort.
* Python strings compare lexicographically by code point; we define that
  Boolean order on `String.data` directly.
* Filesystem state (for `glob` + `getmtime`) is passed explicitly; the
  password database (`pwd`) and the SSH key file are passed as lists.
-/

namespace AccessAudit

-- Throughout, a calendar date (`datetime.date`) is an ordinal day number and
-- a timestamp a count of microseconds since the epoch, both `Int`.

/-- Microseconds in one day. -/
def usecPerDay : Int := 86400000000

/-- `date.fromtimestamp(t)`: the calendar date containing timestamp `t`. -/
def dateOf (t : Int) : Int := Int.fdiv t usecPerDay

/-- `mktime((date.today() - timedelta(days)).timetuple())`: midnight starting
the day `days` days before `today`.  Both query functions compute
`query_time` this way. -/
def queryTimeFor (today : Int) (days : ℕ) : Int := (today - days) * usecPerDay

/-- Python `<` on strings, on the underlying character lists: lexicographic
by code point. -/
def strLtList : List Char → List Char → Bool
  | [], [] => false
  | [], _ :: _ => true
  | _ :: _, [] => false
  | a :: as, b :: bs =>
    if a.val.toNat < b.val.toNat then true
    else if b.val.toNat < a.val.toNat then false
    else strLtList as bs

/-- Python `<` on strings. -/
def strLt (a b : String) : Bool := strLtList a.data b.data

/-- Python `<=` on strings (total order: `a <= b ↔ ¬ b < a`). -/
def strLe (a b : String) : Bool := !(strLtList b.data a.data)

/-- The per-date access record dict `{"start": …, "end": …, "users": …}`
(the spec's DayRecord; merged intervals reuse the same shape). -/
structure DayRecord where
  start : Int
  end_ : Int
  users : List String
deriving DecidableEq

/-- Stable insertion of `x` into `l`: `x` goes after every element `y` with
`le y x`, so equal keys keep their original relative order, as in Python's
stable sorts. -/
def insertStable (le : α → α → Bool) (x : α) : List α → List α
  | [] => [x]
  | y :: ys => if le y x then y :: insertStable le x ys else x :: y :: ys

/-- Stable sort (models Python's stable `sorted` / `list.sort`). -/
def stableSortBy (le : α → α → Bool) (l : List α) : List α :=
  l.foldl (fun acc x => insertStable le x acc) []

/-- One iteration of the merge loop in `sort_and_merge`, acting on the
*reversed* accumulator (`merged_records` with its last element first, so the
Python in-place update of `merged_records[-1]` is a head replacement). -/
def mergeStep : List DayRecord → DayRecord → List DayRecord
  | [], record => [record]
  | last :: rest, record =>
    if record.start = last.end_ + 1 then
      if record.users = last.users then
        { last with end_ := record.start } :: rest
      else
        record :: last :: rest
    else
      record :: last :: rest

/-- The `record["users"].sort()` pass of `sort_and_merge`. -/
def sortUsers (r : DayRecord) : DayRecord :=
  { r with users := stableSortBy strLe r.users }

/-- `sort_and_merge(records)`: sort the dict's values by start date, sort each
user list, then merge records for consecutive days with the same users.
`records` is the dict's value list in insertion order. -/
def sort_and_merge (records : List DayRecord) : List DayRecord :=
  let sortedRecords := stableSortBy (fun a b => decide (a.start ≤ b.start)) records
  let sortedUsers := sortedRecords.map sortUsers
  (sortedUsers.foldl mergeStep []).reverse

/-- A password database entry (`pwd` struct): login name and GECOS field. -/
structure PwEntry where
  pw_name : String
  pw_gecos : String
deriving DecidableEq

/-- `s.split(sep)[0]`: the characters of `s` before the first `sep`. -/
def firstFieldSep (sep : Char) (s : String) : String :=
  ⟨s.data.takeWhile (fun c => c ≠ sep)⟩

/-- `resolve_real_name(user)`: first comma-separated GECOS segment of the
password-database entry if present and non-empty, otherwise the
"real name not found" placeholder.  `pwd.getpwnam` is lookup by `pw_name`
in the database list. -/
def resolve_real_name (passwordDb : List PwEntry) (user : String) : String :=
  let password_db_entry := passwordDb.find? (fun e => e.pw_name == user)
  let name_not_found := user ++ " (real name not found)"
  match password_db_entry with
  | some entry =>
    let real_name := firstFieldSep ',' entry.pw_gecos
    if real_name ≠ "" then real_name else name_not_found
  | none => name_not_found

/-- A decoded `wtmp` entry as produced by `utmp.read`: seconds, microseconds
and the user field (empty string when the record carries no user). -/
structure UtmpEntry where
  sec : Int
  usec : Int
  user : String
deriving DecidableEq

/-- `entry.sec + entry.usec * .000001`, in microseconds. -/
def entryTime (e : UtmpEntry) : Int := e.sec * 1000000 + e.usec

/-- The accumulator of both query loops: the `users` list and the `records`
dict (an association list from date to DayRecord in insertion order). -/
structure AggState where
  users : List String
  records : List (Int × DayRecord)
deriving DecidableEq

/-- `if user not in users: users.append(user)`. -/
def addUser (u : String) (users : List String) : List String :=
  if u ∈ users then users else users ++ [u]

/-- The `records` update of `query_did_access`: create the date's record with
`[user]`, or append `user` to it if absent. -/
def updateDidRecords (d : Int) (u : String) :
    List (Int × DayRecord) → List (Int × DayRecord)
  | [] => [(d, ⟨d, d, [u]⟩)]
  | (d', r) :: rest =>
    if d = d' then
      (d', if u ∈ r.users then r else { r with users := r.users ++ [u] }) :: rest
    else
      (d', r) :: updateDidRecords d u rest

/-- One iteration of the `query_did_access` aggregation loop. -/
def didStep (queryTime : Int) (st : AggState) (e : UtmpEntry) : AggState :=
  if entryTime e > queryTime then
    if e.user = "" then st
    else ⟨addUser e.user st.users,
          updateDidRecords (dateOf (entryTime e)) e.user st.records⟩
  else st

/-- The aggregation loop of `query_did_access` over the decoded entries. -/
def didAggregate (entries : List UtmpEntry) (queryTime : Int) : AggState :=
  entries.foldl (didStep queryTime) ⟨[], []⟩

/-- One CSV row of the "could access" log as consumed by
`query_could_access`: `float(entry[0])` and the user fields `entry[2:]`
(the human-readable timestamp `entry[1]` is ignored). -/
structure CouldRow where
  rtime : Int
  rusers : List String
deriving DecidableEq

/-- `for user in entry_users: if user not in users: users.append(user)`. -/
def addUsersList (us : List String) (users : List String) : List String :=
  us.foldl (fun acc u => addUser u acc) users

/-- The `records` update of `query_could_access`: create the date's record
with the row's user list as-is, or append each user absent from it. -/
def updateCouldRecords (d : Int) (us : List String) :
    List (Int × DayRecord) → List (Int × DayRecord)
  | [] => [(d, ⟨d, d, us⟩)]
  | (d', r) :: rest =>
    if d = d' then
      (d', { r with users := addUsersList us r.users }) :: rest
    else
      (d', r) :: updateCouldRecords d us rest

/-- One iteration of the `query_could_access` aggregation loop. -/
def couldStep (queryTime : Int) (st : AggState) (row : CouldRow) : AggState :=
  if row.rtime > queryTime then
    ⟨addUsersList row.rusers st.users,
     updateCouldRecords (dateOf row.rtime) row.rusers st.records⟩
  else st

/-- The aggregation loop of `query_could_access` over the parsed CSV rows. -/
def couldAggregate (rows : List CouldRow) (queryTime : Int) : AggState :=
  rows.foldl (couldStep queryTime) ⟨[], []⟩

/-- One printed line of `output_text_results`, with the semantic payload of
each formatted sentence (hostname and date formatting are presentation). -/
inductive TextLine where
  | summary (queryType : String) (noOfUsers : ℕ) (days : ℕ) (since : Int)
  | period (userCount : ℕ) (start end_ : Int)
  | name (n : String)
  | noAccess (queryType : String) (days : ℕ) (since : Int)
deriving DecidableEq

/-- `output_text_results`: the summary line followed, per merged record, by
its period line and its alphabetically sorted resolved names; or the single
"no access" sentence when the user count is zero. -/
def output_text_results (queryType : String) (noOfUsers : ℕ)
    (records : List DayRecord) (days : ℕ) (queryTime : Int)
    (passwordDb : List PwEntry) : List TextLine :=
  if noOfUsers ≠ 0 then
    TextLine.summary queryType noOfUsers days queryTime ::
      (sort_and_merge records).flatMap (fun record =>
        TextLine.period record.users.length record.start record.end_ ::
          (stableSortBy strLe
            (record.users.map (resolve_real_name passwordDb))).map TextLine.name)
  else
    [TextLine.noAccess queryType days queryTime]

/-- The header dates of `output_csv_results`: `days` consecutive dates
starting the day after `date.fromtimestamp(query_time)`. -/
def csvDates (days : ℕ) (queryTime : Int) : List Int :=
  (List.range days).map (fun (day : ℕ) => dateOf queryTime + ((day : Int) + 1))

/-- One matrix cell: `"*"` iff the date has a record containing the user. -/
def csvCell (user : String) (d : Int) (records : List (Int × DayRecord)) :
    String :=
  match records.lookup d with
  | some r => if user ∈ r.users then "*" else ""
  | none => ""

/-- One pre-resolution row of the CSV matrix: the raw username, then one cell
per header date. -/
def csvRow (user : String) (dates : List Int)
    (records : List (Int × DayRecord)) : List String :=
  user :: dates.map (fun d => csvCell user d records)

/-- Python list comparison on string lists (lexicographic), as used by
`user_records.sort()`. -/
def listStrLe : List String → List String → Bool
  | [], _ => true
  | _ :: _, [] => false
  | a :: as, b :: bs =>
    if strLt a b then true else if strLt b a then false else listStrLe as bs

/-- The CSV output: the header row's dates (their ISO-8601 rendering is an
injective presentation) and the data rows. -/
structure CsvOutput where
  header : List Int
  rows : List (List String)
deriving DecidableEq

/-- `output_csv_results`: the date header, then one row per distinct user
(marker cells per date), first field replaced by the resolved name, rows
sorted by Python list comparison. -/
def output_csv_results (users : List String)
    (records : List (Int × DayRecord)) (days : ℕ) (queryTime : Int)
    (passwordDb : List PwEntry) : CsvOutput :=
  let dates := csvDates days queryTime
  let user_records := users.map (fun user => csvRow user dates records)
  let resolved := user_records.map (fun user_record =>
    match user_record with
    | [] => []
    | user :: cells => resolve_real_name passwordDb user :: cells)
  ⟨dates, stableSortBy listStrLe resolved⟩

/-- The state of the prefix's directory: whether it exists, and its entries
as (path, mtime) pairs. -/
structure FileSystem where
  dirExists : Bool
  files : List (String × Int)
deriving DecidableEq

/-- `s` begins with `p`, on character lists (the names matched by the glob
pattern `file_path + "*"`). -/
def strStartsWithList : List Char → List Char → Bool
  | _, [] => true
  | [], _ :: _ => false
  | c :: cs, p :: ps => if c = p then strStartsWithList cs ps else false

/-- `glob.glob(file_path + "*")`: every entry of the directory whose path
begins with `file_path`; an empty list when the directory does not exist
(`glob` raises nothing in that case). -/
def globMatches (fs : FileSystem) (file_path : String) : List (String × Int) :=
  if fs.dirExists then
    fs.files.filter (fun f => strStartsWithList f.1.data file_path.data)
  else []

/-- `compile_logs(file_path, query_time)`: the matching files modified
strictly after `query_time`, sorted in reverse lexicographic order.  The
result is in an error monad to make the error channel of the spec statable:
the body raises nothing. -/
def compile_logs (fs : FileSystem) (file_path : String) (queryTime : Int) :
    Except String (List String) :=
  let log_files := ((globMatches fs file_path).filter
    (fun f => f.2 > queryTime)).map Prod.fst
  Except.ok (stableSortBy (fun a b => strLe b a) log_files)

/-- The `users_with_keys` loop of `log_could_access`: first colon-delimited
field of every line of the key-holder file, first occurrence order, no
duplicates.  (`if parts:` is always true: `split` never returns an empty
list.) -/
def usersWithKeys (keysLines : List String) : List String :=
  keysLines.foldl (fun acc line =>
    let user := firstFieldSep ':' line
    if user ∈ acc then acc else acc ++ [user]) []

/-- `log_could_access(file_path)`: the user-name tail of the single CSV row
appended to the log (the full row is `[timestamp, human_timestamp] ++ tail`,
appended with `open(file_path, "a")`, which creates the file if absent):
every password-database account name that appears in the key-holder set, in
database order, without duplicates. -/
def log_could_access (keysLines : List String) (passwordDb : List PwEntry) :
    List String :=
  let users_with_keys := usersWithKeys keysLines
  passwordDb.foldl (fun users e =>
    if e.pw_name ∈ users_with_keys ∧ e.pw_name ∉ users then users ++ [e.pw_name]
    else users) []

/-- The condition `day in records and user in records[day]["users"]` of the
CSV renderer, as a Boolean: the user appears in that date's DayRecord. -/
def presentOn (user : String) (d : Int) (records : List (Int × DayRecord)) :
    Bool :=
  match records.lookup d with
  | some r => decide (user ∈ r.users)
  | none => false

/-- The re-feeding construction of the idempotence property: expand a merged
interval back into single-day records with the same day range and user set
(one record per day of `[start, end_]`). -/
def expandInterval (r : DayRecord) : List DayRecord :=
  (List.range (r.end_ - r.start + 1).toNat).map
    (fun (i : ℕ) => ⟨r.start + i, r.start + i, r.users⟩)

/-- A run of single-day records with one fixed user list, starting at `s`. -/
def expandFrom (s : Int) (n : ℕ) (users : List String) : List DayRecord :=
  (List.range n).map (fun (i : ℕ) => ⟨s + i, s + i, users⟩)

/-- A record's user list is sorted (Python-lexicographically). -/
def SortedUsers (r : DayRecord) : Prop :=
  r.users.Pairwise (fun a b => strLe a b = true)

/-- The separation invariant between consecutive merged intervals: the later
one starts strictly after the earlier one ends, and when they are exactly
adjacent their user lists differ (otherwise the loop would have merged
them). -/
def Rm (a b : DayRecord) : Prop :=
  a.end_ < b.start ∧ (b.start = a.end_ + 1 → b.users ≠ a.users)

/-- `Rm` strengthened with the interval bounds, to make it transitive. -/
def sepRel (a b : DayRecord) : Prop :=
  a.start ≤ a.end_ ∧ b.start ≤ b.end_ ∧ a.end_ < b.start

/-! ### Order infrastructure: the Boolean string order is a total preorder. -/

theorem strLtList_asymm : ∀ (a b : List Char),
    strLtList a b = true → strLtList b a = false
  | [], [] => by simp [strLtList]
  | [], _ :: _ => fun _ => by simp [strLtList]
  | _ :: _, [] => by simp [strLtList]
  | a :: as, b :: bs => by
    intro h
    simp only [strLtList] at h ⊢
    rcases Nat.lt_trichotomy a.val.toNat b.val.toNat with hc | hc | hc
    · simp [hc, Nat.lt_asymm hc]
    · simp only [hc, Nat.lt_irrefl, if_false] at h ⊢
      exact strLtList_asymm as bs h
    · simp [Nat.lt_asymm hc, hc] at h

theorem strLtList_trans : ∀ (a b c : List Char),
    strLtList a b = true → strLtList b c = true → strLtList a c = true
  | [], [], _ => by simp [strLtList]
  | [], _ :: _, [] => fun _ h => by simp [strLtList] at h
  | [], _ :: _, _ :: _ => fun _ _ => by simp [strLtList]
  | _ :: _, [], _ => fun h => by simp [strLtList] at h
  | _ :: _, _ :: _, [] => fun _ h => by simp [strLtList] at h
  | a :: as, b :: bs, c :: cs => by
    intro h1 h2
    simp only [strLtList] at h1 h2 ⊢
    rcases Nat.lt_trichotomy a.val.toNat b.val.toNat with hab | hab | hab
    · rcases Nat.lt_trichotomy b.val.toNat c.val.toNat with hbc | hbc | hbc
      · simp [Nat.lt_trans hab hbc]
      · simp [hbc ▸ hab]
      · simp [Nat.lt_asymm hbc, hbc] at h2
    · rcases Nat.lt_trichotomy b.val.toNat c.val.toNat with hbc | hbc | hbc
      · simp [hab ▸ hbc]
      · simp only [hab, hbc, Nat.lt_irrefl, if_false] at h1 h2 ⊢
        exact strLtList_trans as bs cs h1 h2
      · simp [Nat.lt_asymm hbc, hbc] at h2
    · simp [Nat.lt_asymm hab, hab] at h1

theorem strLtList_trichotomy : ∀ (a b : List Char),
    strLtList a b = true ∨ strLtList b a = true ∨ a = b
  | [], [] => Or.inr (Or.inr rfl)
  | [], _ :: _ => Or.inl (by simp [strLtList])
  | _ :: _, [] => Or.inr (Or.inl (by simp [strLtList]))
  | a :: as, b :: bs => by
    rcases Nat.lt_trichotomy a.val.toNat b.val.toNat with h | h | h
    · exact Or.inl (by simp [strLtList, h])
    · have hab : a = b := by ext; exact h
      rcases strLtList_trichotomy as bs with h' | h' | h'
      · exact Or.inl (by simp [strLtList, h, h'])
      · exact Or.inr (Or.inl (by simp [strLtList, h.symm, h']))
      · exact Or.inr (Or.inr (by rw [hab, h']))
    · exact Or.inr (Or.inl (by simp [strLtList, h]))

theorem strLe_total (a b : String) : strLe a b = true ∨ strLe b a = true := by
  unfold strLe
  cases h : strLtList b.data a.data
  · exact Or.inl rfl
  · exact Or.inr (by simp [strLtList_asymm _ _ h])

theorem strLe_trans (a b c : String) :
    strLe a b = true → strLe b c = true → strLe a c = true := by
  unfold strLe
  intro h1 h2
  simp only [Bool.not_eq_true', Bool.not_eq_eq_eq_not, Bool.not_true] at h1 h2 ⊢
  by_contra hca
  have hca' : strLtList c.data a.data = true := by
    cases h : strLtList c.data a.data
    · exact absurd h hca
    · rfl
  rcases strLtList_trichotomy b.data c.data with h | h | h
  · exact absurd (strLtList_trans _ _ _ h hca') (by simp [h1])
  · simp [h] at h2
  · rw [h] at h1
    exact absurd hca' (by simp [h1])

theorem strLt_asymm (a b : String) : strLt a b = true → strLt b a = false :=
  fun h => strLtList_asymm _ _ h

theorem strLt_trans (a b c : String) :
    strLt a b = true → strLt b c = true → strLt a c = true :=
  fun h1 h2 => strLtList_trans _ _ _ h1 h2

/-! ### Sorting infrastructure: the stable insertion sort. -/

theorem mem_insertStable (le : α → α → Bool) (x y : α) :
    ∀ l, y ∈ insertStable le x l ↔ y = x ∨ y ∈ l
  | [] => by simp [insertStable]
  | z :: zs => by
    simp only [insertStable]
    split
    · simp only [List.mem_cons, mem_insertStable le x y zs]
      tauto
    · simp only [List.mem_cons]

theorem insertStable_perm (le : α → α → Bool) (x : α) :
    ∀ l, List.Perm (insertStable le x l) (x :: l)
  | [] => by simp [insertStable]
  | z :: zs => by
    simp only [insertStable]
    split
    · exact ((insertStable_perm le x zs).cons z).trans (List.Perm.swap x z zs)
    · exact List.Perm.refl _

theorem stableSortBy_perm (le : α → α → Bool) (l : List α) :
    List.Perm (stableSortBy le l) l := by
  suffices h : ∀ (l acc : List α),
      List.Perm (l.foldl (fun acc x => insertStable le x acc) acc) (acc ++ l) by
    simpa using h l []
  intro l
  induction l with
  | nil => simp
  | cons x xs ih =>
    intro acc
    simp only [List.foldl_cons]
    refine (ih (insertStable le x acc)).trans ?_
    refine ((insertStable_perm le x acc).append_right xs).trans ?_
    simp only [List.cons_append]
    exact List.perm_middle.symm

theorem mem_stableSortBy (le : α → α → Bool) (l : List α) (y : α) :
    y ∈ stableSortBy le l ↔ y ∈ l :=
  (stableSortBy_perm le l).mem_iff

theorem pairwise_insertStable (le : α → α → Bool)
    (htot : ∀ a b, le a b = true ∨ le b a = true)
    (htrans : ∀ a b c, le a b = true → le b c = true → le a c = true)
    (x : α) :
    ∀ l, l.Pairwise (fun a b => le a b = true) →
      (insertStable le x l).Pairwise (fun a b => le a b = true)
  | [], _ => by simp [insertStable]
  | z :: zs, h => by
    simp only [insertStable]
    rcases List.pairwise_cons.mp h with ⟨hz, hzs⟩
    split
    · refine List.pairwise_cons.mpr ⟨?_, pairwise_insertStable le htot htrans x zs hzs⟩
      intro y hy
      rcases (mem_insertStable le x y zs).mp hy with rfl | hy'
      · assumption
      · exact hz y hy'
    · refine List.pairwise_cons.mpr ⟨?_, h⟩
      intro y hy
      have hxz : le x z = true := by
        rcases htot x z with h' | h'
        · exact h'
        · simp_all
      rcases List.mem_cons.mp hy with rfl | hy'
      · exact hxz
      · exact htrans x z y hxz (hz y hy')

theorem pairwise_stableSortBy (le : α → α → Bool)
    (htot : ∀ a b, le a b = true ∨ le b a = true)
    (htrans : ∀ a b c, le a b = true → le b c = true → le a c = true)
    (l : List α) :
    (stableSortBy le l).Pairwise (fun a b => le a b = true) := by
  suffices h : ∀ (l acc : List α), acc.Pairwise (fun a b => le a b = true) →
      (l.foldl (fun acc x => insertStable le x acc) acc).Pairwise
        (fun a b => le a b = true) by
    exact h l [] (by simp)
  intro l
  induction l with
  | nil => intro acc hacc; simpa using hacc
  | cons x xs ih =>
    intro acc hacc
    exact ih _ (pairwise_insertStable le htot htrans x acc hacc)

theorem insertStable_append (le : α → α → Bool) (x : α) :
    ∀ l, (∀ y ∈ l, le y x = true) → insertStable le x l = l ++ [x]
  | [], _ => rfl
  | z :: zs, h => by
    simp only [insertStable, h z (by simp), if_true, List.cons_append,
      List.cons.injEq, true_and]
    exact insertStable_append le x zs (fun y hy => h y (by simp [hy]))

theorem stableSortBy_of_pairwise (le : α → α → Bool) (l : List α)
    (h : l.Pairwise (fun a b => le a b = true)) : stableSortBy le l = l := by
  suffices hgen : ∀ (l acc : List α), l.Pairwise (fun a b => le a b = true) →
      (∀ y ∈ acc, ∀ x ∈ l, le y x = true) →
      l.foldl (fun acc x => insertStable le x acc) acc = acc ++ l by
    simpa using hgen l [] h (by simp)
  intro l
  induction l with
  | nil => intro acc _ _; simp
  | cons x xs ih =>
    intro acc hl hcross
    rcases List.pairwise_cons.mp hl with ⟨hx, hxs⟩
    simp only [List.foldl_cons]
    rw [insertStable_append le x acc (fun y hy => hcross y hy x (by simp))]
    rw [ih (acc ++ [x]) hxs ?_]
    · simp
    · intro y hy z hz
      rcases List.mem_append.mp hy with hy' | hy'
      · exact hcross y hy' z (by simp [hz])
      · simp only [List.mem_singleton] at hy'
        subst hy'
        exact hx z hz

theorem length_insertStable (le : α → α → Bool) (x : α) :
    ∀ l, (insertStable le x l).length = l.length + 1 :=
  fun l => (insertStable_perm le x l).length_eq

theorem length_stableSortBy (le : α → α → Bool) (l : List α) :
    (stableSortBy le l).length = l.length :=
  (stableSortBy_perm le l).length_eq

/-! ### Aggregation infrastructure. -/

theorem foldl_eq_foldl_filter (f : β → α → β) (p : α → Bool)
    (hf : ∀ s a, p a = false → f s a = s) :
    ∀ (l : List α) (init : β), l.foldl f init = (l.filter p).foldl f init
  | [], _ => rfl
  | a :: as, init => by
    simp only [List.filter_cons]
    cases hp : p a
    · rw [List.foldl_cons, hf init a hp, if_neg (by simp)]
      exact foldl_eq_foldl_filter f p hf as init
    · rw [if_pos rfl, List.foldl_cons, List.foldl_cons]
      exact foldl_eq_foldl_filter f p hf as (f init a)

theorem mem_addUser_self (u : String) (l : List String) : u ∈ addUser u l := by
  unfold addUser
  split
  · assumption
  · simp

theorem mem_addUser_mono (u v : String) (l : List String) (h : v ∈ l) :
    v ∈ addUser u l := by
  unfold addUser
  split
  · exact h
  · simp [h]

theorem addUser_ne_nil (u : String) (l : List String) : addUser u l ≠ [] := by
  unfold addUser
  split
  · rename_i hmem
    intro h
    subst h
    simp at hmem
  · simp

theorem mem_addUsersList_mono (us : List String) :
    ∀ l v, v ∈ l → v ∈ addUsersList us l := by
  induction us with
  | nil => intro l v h; exact h
  | cons u us ih =>
    intro l v h
    exact ih (addUser u l) v (mem_addUser_mono u v l h)

theorem mem_addUsersList_of_mem (us : List String) :
    ∀ l u, u ∈ us → u ∈ addUsersList us l := by
  induction us with
  | nil => simp
  | cons v vs ih =>
    intro l u hu
    rcases List.mem_cons.mp hu with rfl | hu'
    · exact mem_addUsersList_mono vs (addUser u l) u (mem_addUser_self u l)
    · exact ih (addUser v l) u hu'

theorem addUsersList_ne_nil (us : List String) :
    ∀ l, l ≠ [] → addUsersList us l ≠ [] := by
  induction us with
  | nil => intro l h; exact h
  | cons u us ih =>
    intro l _
    exact ih (addUser u l) (addUser_ne_nil u l)

theorem lookup_updateDidRecords (d : Int) (u : String) :
    ∀ rs, ∃ r, (updateDidRecords d u rs).lookup d = some r ∧ u ∈ r.users
  | [] => ⟨⟨d, d, [u]⟩, by simp [updateDidRecords, List.lookup], by simp⟩
  | (d', r) :: rest => by
    by_cases hd : d = d'
    · subst hd
      by_cases hu : u ∈ r.users
      · exact ⟨r, by simp [updateDidRecords, List.lookup, hu], hu⟩
      · exact ⟨{ r with users := r.users ++ [u] },
          by simp [updateDidRecords, List.lookup, hu], by simp⟩
    · simp only [updateDidRecords, if_neg hd]
      obtain ⟨r', h1, h2⟩ := lookup_updateDidRecords d u rest
      refine ⟨r', ?_, h2⟩
      simpa [List.lookup, beq_eq_false_iff_ne.mpr hd] using h1

theorem lookup_updateCouldRecords (d : Int) (us : List String) (u : String)
    (hu : u ∈ us) :
    ∀ rs, ∃ r, (updateCouldRecords d us rs).lookup d = some r ∧ u ∈ r.users
  | [] => ⟨⟨d, d, us⟩, by simp [updateCouldRecords, List.lookup], hu⟩
  | (d', r) :: rest => by
    by_cases hd : d = d'
    · subst hd
      exact ⟨{ r with users := addUsersList us r.users },
        by simp [updateCouldRecords, List.lookup],
        mem_addUsersList_of_mem us r.users u hu⟩
    · simp only [updateCouldRecords, if_neg hd]
      obtain ⟨r', h1, h2⟩ := lookup_updateCouldRecords d us u hu rest
      refine ⟨r', ?_, h2⟩
      simpa [List.lookup, beq_eq_false_iff_ne.mpr hd] using h1

theorem updateDidRecords_users_ne_nil (d : Int) (u : String) :
    ∀ rs, (∀ p ∈ rs, (p : Int × DayRecord).2.users ≠ []) →
      ∀ p ∈ updateDidRecords d u rs, (p : Int × DayRecord).2.users ≠ []
  | [] => by
    intro _ p hp
    simp only [updateDidRecords, List.mem_singleton] at hp
    subst hp
    simp
  | (d', r) :: rest => by
    intro hall p hp
    simp only [updateDidRecords] at hp
    split at hp
    · rcases List.mem_cons.mp hp with rfl | hp'
      · by_cases hu : u ∈ r.users
        · simpa [hu] using hall (d', r) (by simp)
        · simp [hu]
      · exact hall p (by simp [hp'])
    · rcases List.mem_cons.mp hp with rfl | hp'
      · exact hall _ (by simp)
      · exact updateDidRecords_users_ne_nil d u rest
          (fun q hq => hall q (by simp [hq])) p hp'

theorem updateCouldRecords_users_ne_nil (d : Int) (us : List String)
    (hus : us ≠ []) :
    ∀ rs, (∀ p ∈ rs, (p : Int × DayRecord).2.users ≠ []) →
      ∀ p ∈ updateCouldRecords d us rs, (p : Int × DayRecord).2.users ≠ []
  | [] => by
    intro _ p hp
    simp only [updateCouldRecords, List.mem_singleton] at hp
    subst hp
    exact hus
  | (d', r) :: rest => by
    intro hall p hp
    simp only [updateCouldRecords] at hp
    split at hp
    · rcases List.mem_cons.mp hp with rfl | hp'
      · exact addUsersList_ne_nil us r.users (hall (d', r) (by simp))
      · exact hall p (by simp [hp'])
    · rcases List.mem_cons.mp hp with rfl | hp'
      · exact hall _ (by simp)
      · exact updateCouldRecords_users_ne_nil d us hus rest
          (fun q hq => hall q (by simp [hq])) p hp'

theorem didFold_users_ne_nil (queryTime : Int) :
    ∀ (entries : List UtmpEntry) (st : AggState),
      (∀ p ∈ st.records, (p : Int × DayRecord).2.users ≠ []) →
      ∀ p ∈ (entries.foldl (didStep queryTime) st).records,
        (p : Int × DayRecord).2.users ≠ []
  | [], st => fun h => h
  | e :: es, st => by
    intro h
    simp only [List.foldl_cons]
    refine didFold_users_ne_nil queryTime es (didStep queryTime st e) ?_
    unfold didStep
    split
    · split
      · exact h
      · exact updateDidRecords_users_ne_nil (dateOf (entryTime e)) e.user
          st.records h
    · exact h

theorem couldFold_users_ne_nil (queryTime : Int) :
    ∀ (rows : List CouldRow) (st : AggState),
      (∀ row ∈ rows, row.rtime > queryTime → row.rusers ≠ []) →
      (∀ p ∈ st.records, (p : Int × DayRecord).2.users ≠ []) →
      ∀ p ∈ (rows.foldl (couldStep queryTime) st).records,
        (p : Int × DayRecord).2.users ≠ []
  | [], st => fun _ h => h
  | row :: rows, st => by
    intro hrows h
    simp only [List.foldl_cons]
    refine couldFold_users_ne_nil queryTime rows (couldStep queryTime st row)
      (fun q hq => hrows q (by simp [hq])) ?_
    unfold couldStep
    split
    · rename_i hwin
      exact updateCouldRecords_users_ne_nil (dateOf row.rtime) row.rusers
        (hrows row (by simp) hwin) st.records h
    · exact h

theorem dateOf_queryTimeFor (today : Int) (days : ℕ) :
    dateOf (queryTimeFor today days) = today - days := by
  unfold dateOf queryTimeFor usecPerDay
  exact Int.mul_fdiv_cancel _ (by decide)

theorem csvCell_beq_star (user : String) (d : Int)
    (records : List (Int × DayRecord)) :
    (csvCell user d records == "*") = presentOn user d records := by
  unfold csvCell presentOn
  cases records.lookup d with
  | none => rfl
  | some r =>
    show ((if user ∈ r.users then "*" else "") == "*") = decide (user ∈ r.users)
    by_cases hu : user ∈ r.users
    · rw [if_pos hu, decide_eq_true hu]
      rfl
    · rw [if_neg hu, decide_eq_false hu]
      rfl

theorem csvCell_eq_star_or_empty (user : String) (d : Int)
    (records : List (Int × DayRecord)) :
    csvCell user d records = "*" ∨ csvCell user d records = "" := by
  unfold csvCell
  cases records.lookup d with
  | none => exact Or.inr rfl
  | some r =>
    show (if user ∈ r.users then "*" else "") = "*" ∨ _
    by_cases hu : user ∈ r.users
    · exact Or.inl (if_pos hu)
    · exact Or.inr (if_neg hu)

theorem csvDates_getElem? (days i : ℕ) (q : Int) (hi : i < days) :
    (csvDates days q)[i]? = some (dateOf q + ((i : Int) + 1)) := by
  unfold csvDates
  rw [List.getElem?_map,
    List.getElem?_eq_getElem (by rw [List.length_range]; exact hi)]
  simp

/-! ### Merge-loop infrastructure. -/

theorem mergeStep_start_sub (acc : List DayRecord) (r : DayRecord) :
    ∀ a ∈ mergeStep acc r, a.start = r.start ∨ ∃ b ∈ acc, a.start = b.start := by
  intro a ha
  cases acc with
  | nil =>
    simp only [mergeStep, List.mem_singleton] at ha
    exact Or.inl (ha ▸ rfl)
  | cons last t =>
    simp only [mergeStep] at ha
    split at ha
    · split at ha
      · rcases List.mem_cons.mp ha with rfl | ha'
        · exact Or.inr ⟨last, by simp, rfl⟩
        · exact Or.inr ⟨a, by simp [ha'], rfl⟩
      · rcases List.mem_cons.mp ha with rfl | ha'
        · exact Or.inl rfl
        · exact Or.inr ⟨a, ha', rfl⟩
    · rcases List.mem_cons.mp ha with rfl | ha'
      · exact Or.inl rfl
      · exact Or.inr ⟨a, ha', rfl⟩

theorem mergeLoop_start_le :
    ∀ (input acc : List DayRecord),
      acc.Chain' (fun a b => b.start ≤ a.start) →
      (∀ a ∈ acc, ∀ r ∈ input, a.start ≤ r.start) →
      input.Pairwise (fun a b => a.start ≤ b.start) →
      (input.foldl mergeStep acc).Chain' (fun a b => b.start ≤ a.start)
  | [], acc => fun hacc _ _ => hacc
  | r :: rest, acc => by
    intro hacc hcross hin
    simp only [List.foldl_cons]
    rcases List.pairwise_cons.mp hin with ⟨hr, hrest⟩
    refine mergeLoop_start_le rest (mergeStep acc r) ?_ ?_ hrest
    · cases acc with
      | nil => simp [mergeStep]
      | cons last t =>
        simp only [mergeStep]
        split
        · split
          · cases t with
            | nil => simp
            | cons t0 t' =>
              rcases List.chain'_cons.mp hacc with ⟨h1, h2⟩
              exact List.chain'_cons.mpr ⟨h1, h2⟩
          · exact List.chain'_cons.mpr
              ⟨hcross last (by simp) r (by simp), hacc⟩
        · exact List.chain'_cons.mpr
            ⟨hcross last (by simp) r (by simp), hacc⟩
    · intro a ha x hx
      rcases mergeStep_start_sub acc r a ha with h | ⟨b, hb, h⟩
      · rw [h]
        exact hr x hx
      · rw [h]
        exact hcross b hb x (by simp [hx])

/-! ### Idempotence infrastructure: merged-output invariants and the
re-feeding expansion of C9. -/

theorem expandInterval_eq_expandFrom (r : DayRecord) :
    expandInterval r = expandFrom r.start (r.end_ - r.start + 1).toNat r.users :=
  rfl

theorem expandInterval_mem (r : DayRecord) (hr : r.start ≤ r.end_) :
    ∀ x ∈ expandInterval r, r.start ≤ x.start ∧ x.start ≤ r.end_ ∧
      x.end_ = x.start ∧ x.users = r.users := by
  intro x hx
  unfold expandInterval at hx
  rcases List.mem_map.mp hx with ⟨i, hi, rfl⟩
  rw [List.mem_range] at hi
  have hi' : (i : Int) ≤ r.end_ - r.start := by omega
  refine ⟨?_, ?_, rfl, rfl⟩ <;> dsimp only <;> omega

theorem expandInterval_pairwise (r : DayRecord) :
    (expandInterval r).Pairwise (fun a b => a.start < b.start) := by
  unfold expandInterval
  rw [List.pairwise_map]
  exact (List.pairwise_lt_range _).imp (fun h => by
    simp only
    omega)

theorem chain'_sepRel :
    ∀ out : List DayRecord, (∀ a ∈ out, a.start ≤ a.end_) →
      out.Chain' Rm → out.Chain' sepRel
  | [], _, _ => List.chain'_nil
  | [a], _, _ => List.chain'_singleton a
  | a :: b :: l, hel, hch => by
    rcases List.chain'_cons.mp hch with ⟨hab, hrest⟩
    refine List.chain'_cons.mpr ⟨⟨hel a (by simp), hel b (by simp), hab.1⟩, ?_⟩
    exact chain'_sepRel (b :: l) (fun x hx => hel x (by simp [hx])) hrest

theorem expand_pairwise_start_le (out : List DayRecord)
    (hel : ∀ a ∈ out, a.start ≤ a.end_) (hch : out.Chain' Rm) :
    (out.flatMap expandInterval).Pairwise (fun a b => a.start ≤ b.start) := by
  rw [List.pairwise_flatMap]
  constructor
  · intro a _
    exact (expandInterval_pairwise a).imp (fun h => le_of_lt h)
  · haveI : IsTrans DayRecord sepRel := ⟨fun a b c hab hbc =>
      ⟨hab.1, hbc.2.1, lt_trans (lt_of_lt_of_le hab.2.2 hbc.1) hbc.2.2⟩⟩
    have hpair : out.Pairwise sepRel :=
      List.chain'_iff_pairwise.mp (chain'_sepRel out hel hch)
    refine hpair.imp ?_
    intro a b hab x hx y hy
    obtain ⟨_, hax2, _, _⟩ := expandInterval_mem a hab.1 x hx
    obtain ⟨hby1, _, _, _⟩ := expandInterval_mem b hab.2.1 y hy
    exact le_trans hax2 (le_trans (le_of_lt hab.2.2) hby1)

theorem mergeLoop_inv :
    ∀ (input acc : List DayRecord),
      (∀ r ∈ input, r.end_ = r.start ∧ SortedUsers r) →
      input.Pairwise (fun a b => a.start < b.start) →
      (∀ a ∈ acc, a.start ≤ a.end_ ∧ SortedUsers a) →
      acc.Chain' (fun a b => Rm b a) →
      (∀ a, acc.head? = some a → ∀ r ∈ input, a.end_ < r.start) →
      (∀ a ∈ input.foldl mergeStep acc, a.start ≤ a.end_ ∧ SortedUsers a) ∧
        (input.foldl mergeStep acc).Chain' (fun a b => Rm b a)
  | [], acc => fun _ _ hel hch _ => ⟨hel, hch⟩
  | r :: rest, acc => by
    intro hin hpin hel hch hfront
    simp only [List.foldl_cons]
    rcases List.pairwise_cons.mp hpin with ⟨hr, hrest⟩
    obtain ⟨hre, hru⟩ := hin r (by simp)
    refine mergeLoop_inv rest (mergeStep acc r)
      (fun x hx => hin x (by simp [hx])) hrest ?_ ?_ ?_
    · intro a ha
      cases acc with
      | nil =>
        simp only [mergeStep, List.mem_singleton] at ha
        subst ha
        exact ⟨by omega, hru⟩
      | cons last t =>
        simp only [mergeStep] at ha
        split at ha
        · split at ha
          · rcases List.mem_cons.mp ha with rfl | ha'
            · obtain ⟨hls, hlu⟩ := hel last (by simp)
              have hfl := hfront last rfl r (by simp)
              exact ⟨by dsimp only; omega, hlu⟩
            · exact hel a (by simp [ha'])
          · rcases List.mem_cons.mp ha with rfl | ha'
            · exact ⟨by omega, hru⟩
            · exact hel a ha'
        · rcases List.mem_cons.mp ha with rfl | ha'
          · exact ⟨by omega, hru⟩
          · exact hel a ha'
    · cases acc with
      | nil => exact List.chain'_singleton r
      | cons last t =>
        simp only [mergeStep]
        have hlast := hfront last rfl r (by simp)
        split
        · rename_i h1
          split
          · rename_i h2
            cases t with
            | nil => exact List.chain'_singleton _
            | cons t0 t' =>
              rcases List.chain'_cons.mp hch with ⟨ht0, hres⟩
              exact List.chain'_cons.mpr ⟨⟨ht0.1, ht0.2⟩, hres⟩
          · rename_i h2
            exact List.chain'_cons.mpr ⟨⟨hlast, fun _ => h2⟩, hch⟩
        · rename_i h1
          exact List.chain'_cons.mpr ⟨⟨hlast, fun hadj => absurd hadj h1⟩, hch⟩
    · intro a ha x hx
      have hrx : r.start < x.start := hr x hx
      cases acc with
      | nil =>
        simp only [mergeStep, List.head?_cons, Option.some_inj] at ha
        subst ha
        omega
      | cons last t =>
        simp only [mergeStep] at ha
        split at ha
        · split at ha
          · simp only [List.head?_cons, Option.some_inj] at ha
            subst ha
            dsimp only
            omega
          · simp only [List.head?_cons, Option.some_inj] at ha
            subst ha
            omega
        · simp only [List.head?_cons, Option.some_inj] at ha
          subst ha
          omega

theorem sort_and_merge_inv (records : List DayRecord)
    (hday : ∀ r ∈ records, r.end_ = r.start)
    (hdist : records.Pairwise (fun a b => a.start ≠ b.start)) :
    (∀ a ∈ sort_and_merge records, a.start ≤ a.end_ ∧ SortedUsers a) ∧
      (sort_and_merge records).Chain' Rm := by
  unfold sort_and_merge
  have hperm := stableSortBy_perm (fun a b => decide (a.start ≤ b.start)) records
  have hle : (stableSortBy (fun a b => decide (a.start ≤ b.start))
      records).Pairwise (fun a b => a.start ≤ b.start) := by
    have h := pairwise_stableSortBy (fun a b => decide (a.start ≤ b.start))
      (fun a b => by
        rcases le_total a.start b.start with h | h
        · exact Or.inl (decide_eq_true h)
        · exact Or.inr (decide_eq_true h))
      (fun a b c h1 h2 => decide_eq_true
        (le_trans (of_decide_eq_true h1) (of_decide_eq_true h2)))
      records
    exact h.imp (fun hab => of_decide_eq_true hab)
  have hne : (stableSortBy (fun a b => decide (a.start ≤ b.start))
      records).Pairwise (fun a b => a.start ≠ b.start) :=
    (hperm.pairwise_iff (fun h heq => h heq.symm)).mpr hdist
  have hlt : (stableSortBy (fun a b => decide (a.start ≤ b.start))
      records).Pairwise (fun a b => a.start < b.start) :=
    (hle.and hne).imp (fun h => lt_of_le_of_ne h.1 h.2)
  have hin : ∀ r ∈ (stableSortBy (fun a b => decide (a.start ≤ b.start))
      records).map sortUsers, r.end_ = r.start ∧ SortedUsers r := by
    intro r hr
    rcases List.mem_map.mp hr with ⟨x, hx, rfl⟩
    have hx' : x ∈ records := (mem_stableSortBy _ records x).mp hx
    refine ⟨hday x hx', ?_⟩
    exact pairwise_stableSortBy strLe strLe_total strLe_trans x.users
  have hpin : ((stableSortBy (fun a b => decide (a.start ≤ b.start))
      records).map sortUsers).Pairwise (fun a b => a.start < b.start) :=
    List.pairwise_map.mpr hlt
  obtain ⟨hel, hch⟩ := mergeLoop_inv _ [] hin hpin (by simp) (by simp)
    (by simp)
  constructor
  · intro a ha
    exact hel a (by simpa using ha)
  · rw [List.chain'_reverse]
    exact hch

theorem map_id_of_mem : ∀ (l : List α) (f : α → α),
    (∀ a ∈ l, f a = a) → l.map f = l
  | [], _, _ => rfl
  | a :: as, f, h => by
    simp only [List.map_cons, h a (by simp)]
    rw [map_id_of_mem as f (fun x hx => h x (by simp [hx]))]

theorem mergeRun (s : Int) (U : List String) :
    ∀ (n : ℕ) (acc : List DayRecord),
      (∀ a, acc.head? = some a →
        a.end_ < s ∧ (s = a.end_ + 1 → U ≠ a.users)) →
      (expandFrom s (n + 1) U).foldl mergeStep acc =
        ⟨s, s + (n : Int), U⟩ :: acc
  | 0, acc => by
    intro hacc
    have hexp : expandFrom s 1 U = [⟨s, s, U⟩] := by
      simp [expandFrom, List.range_succ]
    rw [hexp]
    simp only [List.foldl_cons, List.foldl_nil, Int.natCast_zero, add_zero]
    cases acc with
    | nil => rfl
    | cons last t =>
      obtain ⟨h1, h2⟩ := hacc last rfl
      simp only [mergeStep]
      by_cases hc : s = last.end_ + 1
      · rw [if_pos hc, if_neg (h2 hc)]
      · rw [if_neg hc]
  | n + 1, acc => by
    intro hacc
    have hexp : expandFrom s (n + 1 + 1) U = expandFrom s (n + 1) U ++
        [⟨s + ((n : Int) + 1), s + ((n : Int) + 1), U⟩] := by
      unfold expandFrom
      rw [List.range_succ, List.map_append]
      simp
    rw [hexp, List.foldl_append, mergeRun s U n acc hacc]
    simp only [List.foldl_cons, List.foldl_nil, mergeStep]
    rw [if_pos (by ring : s + ((n : Int) + 1) = s + (n : Int) + 1),
      if_pos trivial]
    have hcast : ((n + 1 : ℕ) : Int) = (n : Int) + 1 := by
      push_cast
      ring
    rw [hcast]

theorem mergeLoop_expand :
    ∀ (out acc : List DayRecord),
      (∀ a ∈ out, a.start ≤ a.end_) →
      out.Chain' Rm →
      (∀ a, acc.head? = some a → ∀ h0, out.head? = some h0 → Rm a h0) →
      (out.flatMap expandInterval).foldl mergeStep acc = out.reverse ++ acc
  | [], acc => by
    intro _ _ _
    simp
  | r :: rest, acc => by
    intro hel hch hacc
    have hr : r.start ≤ r.end_ := hel r (by simp)
    have hk : (r.end_ - r.start + 1).toNat = (r.end_ - r.start).toNat + 1 := by
      omega
    simp only [List.flatMap_cons, List.foldl_append]
    have hrun : (expandInterval r).foldl mergeStep acc = r :: acc := by
      rw [expandInterval_eq_expandFrom, hk,
        mergeRun r.start r.users (r.end_ - r.start).toNat acc
          (fun a ha => hacc a ha r rfl)]
      have he : r.start + ((r.end_ - r.start).toNat : Int) = r.end_ := by omega
      rw [he]
    rw [hrun,
      mergeLoop_expand rest (r :: acc) (fun x hx => hel x (by simp [hx]))
        (List.chain'_cons'.mp hch).2 ?_]
    · simp
    · intro a ha h0 hh0
      simp only [List.head?_cons, Option.some_inj] at ha
      subst ha
      exact (List.chain'_cons'.mp hch).1 h0 hh0

theorem sort_and_merge_expand_eq (out : List DayRecord)
    (hel : ∀ a ∈ out, a.start ≤ a.end_ ∧ SortedUsers a)
    (hch : out.Chain' Rm) :
    sort_and_merge (out.flatMap expandInterval) = out := by
  show (((stableSortBy (fun a b => decide (a.start ≤ b.start))
      (out.flatMap expandInterval)).map sortUsers).foldl mergeStep []).reverse
    = out
  have hsorted : (out.flatMap expandInterval).Pairwise
      (fun a b => decide (a.start ≤ b.start) = true) :=
    (expand_pairwise_start_le out (fun a ha => (hel a ha).1) hch).imp
      (fun h => decide_eq_true h)
  rw [stableSortBy_of_pairwise _ _ hsorted]
  have h1 : ∀ x ∈ out.flatMap expandInterval, sortUsers x = x := by
    intro x hx
    rcases List.mem_flatMap.mp hx with ⟨r, hrmem, hxr⟩
    obtain ⟨hrs, hru⟩ := hel r hrmem
    obtain ⟨_, _, _, hxu⟩ := expandInterval_mem r hrs x hxr
    unfold sortUsers
    rw [stableSortBy_of_pairwise strLe x.users (by rw [hxu]; exact hru)]
  rw [map_id_of_mem _ sortUsers h1,
    mergeLoop_expand out [] (fun a ha => (hel a ha).1) hch (by simp)]
  simp

/-- C9: `sort_and_merge` is idempotent: for every record map (a DayRecord per
distinct date, with `start = end = date` as the aggregation builds them),
expanding the merged intervals back into single-day records with identical
day ranges and user sets and re-feeding them yields the same sequence of
merged intervals. -/
theorem C9_sort_and_merge_idempotent (records : List DayRecord)
    (hday : ∀ r ∈ records, r.end_ = r.start)
    (hdist : records.Pairwise (fun a b => a.start ≠ b.start)) :
    sort_and_merge ((sort_and_merge records).flatMap expandInterval) =
      sort_and_merge records := by
  obtain ⟨hel, hch⟩ := sort_and_merge_inv records hday hdist
  exact sort_and_merge_expand_eq (sort_and_merge records) hel hch

/-- Witness for C9: idempotence at the three-day concrete input of C1. -/
theorem C9_witness :
    sort_and_merge ((sort_and_merge
        [⟨19723, 19723, ["B", "A"]⟩, ⟨19724, 19724, ["A", "B"]⟩,
         ⟨19725, 19725, ["A"]⟩]).flatMap expandInterval) =
      sort_and_merge
        [⟨19723, 19723, ["B", "A"]⟩, ⟨19724, 19724, ["A", "B"]⟩,
         ⟨19725, 19725, ["A"]⟩] :=
  C9_sort_and_merge_idempotent
    [⟨19723, 19723, ["B", "A"]⟩, ⟨19724, 19724, ["A", "B"]⟩,
     ⟨19725, 19725, ["A"]⟩] (by decide) (by decide)

/-- C1: `sort_and_merge` returns the records sorted by start date ascending;
its walk coalesces the next record into the current interval exactly when
the record's start equals the interval's end plus one day and their
(lexicographically sorted) user sequences are equal — otherwise the interval
is closed and a new one starts; and on the two dictated examples
(2024-01-01..03 = days 19723..19725 with users {A,B},{A,B},{A}, and the
non-contiguous 01-01/01-03 with equal users) it produces exactly the claimed
intervals. -/
theorem C1_sort_and_merge :
    (∀ records : List DayRecord,
        (sort_and_merge records).Chain' (fun a b => a.start ≤ b.start)) ∧
    (∀ (last : DayRecord) (rest : List DayRecord) (r : DayRecord),
        mergeStep (last :: rest) r =
          if r.start = last.end_ + 1 ∧ r.users = last.users then
            { last with end_ := r.start } :: rest
          else r :: last :: rest) ∧
    sort_and_merge
        [⟨19723, 19723, ["B", "A"]⟩, ⟨19724, 19724, ["A", "B"]⟩,
         ⟨19725, 19725, ["A"]⟩] =
      [⟨19723, 19724, ["A", "B"]⟩, ⟨19725, 19725, ["A"]⟩] ∧
    sort_and_merge [⟨19723, 19723, ["A"]⟩, ⟨19725, 19725, ["A"]⟩] =
      [⟨19723, 19723, ["A"]⟩, ⟨19725, 19725, ["A"]⟩] := by
  refine ⟨?_, ?_, by decide, by decide⟩
  · intro records
    unfold sort_and_merge
    rw [List.chain'_reverse]
    refine mergeLoop_start_le _ [] (by simp) (by simp) ?_
    rw [List.pairwise_map]
    have h := pairwise_stableSortBy (fun a b => decide (a.start ≤ b.start))
      (fun a b => by
        rcases le_total a.start b.start with h | h
        · exact Or.inl (decide_eq_true h)
        · exact Or.inr (decide_eq_true h))
      (fun a b c h1 h2 =>
        decide_eq_true (le_trans (of_decide_eq_true h1) (of_decide_eq_true h2)))
      records
    exact h.imp (fun hab => of_decide_eq_true hab)
  · intro last rest r
    simp only [mergeStep]
    by_cases h1 : r.start = last.end_ + 1
    · by_cases h2 : r.users = last.users
      · simp [h1, h2]
      · simp [h1, h2]
    · simp [h1]

/-- C2, counterexample: a wtmp entry with timestamp strictly greater than
`query_time` (here `query_time + 1 µs`) but an empty user field contributes
to neither the distinct user set nor any DayRecord — the aggregation result
equals that of the empty entry sequence, refuting "includes an entry if and
only if its entry_time is strictly greater than query_time". -/
theorem C2_counterexample :
    entryTime ⟨0, 1, ""⟩ = 1 ∧ (1 : Int) > 0 ∧
    didAggregate [⟨0, 1, ""⟩] 0 = didAggregate [] 0 ∧
    didAggregate [] 0 = ⟨[], []⟩ := by
  refine ⟨rfl, by decide, by decide, rfl⟩

/-- C2, amended: entries with `entry_time <= query_time` are excluded from
both aggregations (filtering them away leaves the result unchanged — in
particular an entry at exactly `query_time` contributes nothing), and an
entry with `entry_time > query_time` *that carries a user* does contribute:
in did-mode a non-empty user lands in the user set and in its date's
DayRecord; in could-mode every user listed on an in-window row does. -/
theorem C2_window_boundary :
    (∀ (entries : List UtmpEntry) (queryTime : Int),
        didAggregate entries queryTime =
          didAggregate (entries.filter fun e => entryTime e > queryTime)
            queryTime) ∧
    (∀ (rows : List CouldRow) (queryTime : Int),
        couldAggregate rows queryTime =
          couldAggregate (rows.filter fun row => row.rtime > queryTime)
            queryTime) ∧
    (∀ (es : List UtmpEntry) (e : UtmpEntry) (queryTime : Int),
        entryTime e > queryTime → e.user ≠ "" →
        e.user ∈ (didAggregate (es ++ [e]) queryTime).users ∧
        ∃ r, (didAggregate (es ++ [e]) queryTime).records.lookup
            (dateOf (entryTime e)) = some r ∧ e.user ∈ r.users) ∧
    (∀ (rs : List CouldRow) (row : CouldRow) (u : String) (queryTime : Int),
        row.rtime > queryTime → u ∈ row.rusers →
        u ∈ (couldAggregate (rs ++ [row]) queryTime).users ∧
        ∃ r, (couldAggregate (rs ++ [row]) queryTime).records.lookup
            (dateOf row.rtime) = some r ∧ u ∈ r.users) := by
  refine ⟨?_, ?_, ?_, ?_⟩
  · intro entries queryTime
    unfold didAggregate
    exact foldl_eq_foldl_filter (didStep queryTime)
      (fun e => decide (entryTime e > queryTime))
      (fun s e hp => by
        unfold didStep
        rw [if_neg (by simpa using hp)]) entries ⟨[], []⟩
  · intro rows queryTime
    unfold couldAggregate
    exact foldl_eq_foldl_filter (couldStep queryTime)
      (fun row => decide (row.rtime > queryTime))
      (fun s row hp => by
        unfold couldStep
        rw [if_neg (by simpa using hp)]) rows ⟨[], []⟩
  · intro es e queryTime ht hu
    unfold didAggregate
    rw [List.foldl_append]
    simp only [List.foldl_cons, List.foldl_nil]
    unfold didStep
    rw [if_pos ht, if_neg hu]
    exact ⟨mem_addUser_self e.user _, lookup_updateDidRecords _ e.user _⟩
  · intro rs row u queryTime ht hu
    unfold couldAggregate
    rw [List.foldl_append]
    simp only [List.foldl_cons, List.foldl_nil]
    unfold couldStep
    rw [if_pos ht]
    exact ⟨mem_addUsersList_of_mem row.rusers _ u hu,
      lookup_updateCouldRecords _ row.rusers u hu _⟩

/-- Witness for C2: the amended theorem applied at concrete inputs. -/
theorem C2_witness :
    "u" ∈ (didAggregate ([] ++ [⟨0, 1, "u"⟩]) 0).users ∧
    "v" ∈ (couldAggregate ([] ++ [⟨1, ["v"]⟩]) 0).users :=
  ⟨(C2_window_boundary.2.2.1 [] ⟨0, 1, "u"⟩ 0 (by decide) (by decide)).1,
   (C2_window_boundary.2.2.2 [] ⟨1, ["v"]⟩ "v" 0 (by decide) (by decide)).1⟩

/-- C4, counterexample: in `query_could_access` a log row strictly inside the
window (`1 > 0`) but with no user fields creates a DayRecord whose users set
is empty, refuting "every DayRecord ever created by the aggregation step has
a non-empty users set, for every possible input sequence". -/
theorem C4_counterexample :
    (1 : Int) > 0 ∧
    couldAggregate [⟨1, []⟩] 0 = ⟨[], [(0, ⟨0, 0, []⟩)]⟩ ∧
    (⟨0, 0, []⟩ : DayRecord).users = [] := by
  refine ⟨by decide, by decide, rfl⟩

/-- C4, amended: every DayRecord created by `query_did_access`'s aggregation
has a non-empty users set, for every input sequence; for
`query_could_access` the same holds provided every *in-window* log row
(timestamp strictly greater than `query_time`) carries at least one user
field — out-of-window rows are skipped and may be empty (an in-window row
with no user fields creates an empty-users record). -/
theorem C4_day_record_users_nonempty :
    (∀ (entries : List UtmpEntry) (queryTime : Int)
        (p : Int × DayRecord), p ∈ (didAggregate entries queryTime).records →
        p.2.users ≠ []) ∧
    (∀ (rows : List CouldRow) (queryTime : Int),
        (∀ row ∈ rows, row.rtime > queryTime → row.rusers ≠ []) →
        ∀ p ∈ (couldAggregate rows queryTime).records, p.2.users ≠ []) := by
  constructor
  · intro entries queryTime p hp
    exact didFold_users_ne_nil queryTime entries ⟨[], []⟩ (by simp) p hp
  · intro rows queryTime hrows p hp
    exact couldFold_users_ne_nil queryTime rows ⟨[], []⟩ hrows (by simp) p hp

/-- Witness for C4: the amended theorem applied at concrete inputs; the
could-mode input includes an out-of-window row with no user fields. -/
theorem C4_witness :
    ((0 : Int), (⟨0, 0, ["u"]⟩ : DayRecord)).2.users ≠ [] ∧
    ((0 : Int), (⟨0, 0, ["v"]⟩ : DayRecord)).2.users ≠ [] :=
  ⟨C4_day_record_users_nonempty.1 [⟨0, 1, "u"⟩] 0 (0, ⟨0, 0, ["u"]⟩)
      (by decide),
   C4_day_record_users_nonempty.2 [⟨0, []⟩, ⟨1, ["v"]⟩] 0 (by decide)
      (0, ⟨0, 0, ["v"]⟩) (by decide)⟩

/-- C5, counterexample: when the prefix's directory does not exist,
`compile_logs` does not fail with a not-found error — `glob` matches nothing
and the function returns the empty sequence successfully, refuting "fails
with a not-found error if and only if the directory does not exist". -/
theorem C5_counterexample :
    (FileSystem.mk false [("/var/log/could.log", 5)]).dirExists = false ∧
    compile_logs ⟨false, [("/var/log/could.log", 5)]⟩ "/var/log/could.log" 0 =
      Except.ok [] :=
  ⟨rfl, rfl⟩

/-- C5, amended: `compile_logs` never fails: for every filesystem state it
returns (successfully) exactly the files matching the prefix whose
modification time is strictly greater than `query_time` — the empty sequence
both for an empty match list and for a missing directory — sorted in
reverse lexicographic order. -/
theorem C5_compile_logs_total (fs : FileSystem) (file_path : String)
    (queryTime : Int) :
    ∃ l, compile_logs fs file_path queryTime = Except.ok l ∧
      (∀ name, name ∈ l ↔ fs.dirExists = true ∧
          ∃ m, (name, m) ∈ fs.files ∧
            strStartsWithList name.data file_path.data = true ∧
            queryTime < m) ∧
      l.Pairwise (fun a b => strLe b a = true) := by
  refine ⟨_, rfl, ?_, ?_⟩
  · intro name
    rw [mem_stableSortBy]
    cases hd : fs.dirExists
    · simp [globMatches, hd]
    · simp only [globMatches, hd, if_pos rfl, List.mem_map, List.mem_filter,
        true_and]
      constructor
      · rintro ⟨⟨n, m⟩, ⟨hmem, hq⟩, rfl⟩
        rcases List.mem_filter.mp hmem with ⟨hfiles, hpre⟩
        exact ⟨m, hfiles, hpre, by simpa using hq⟩
      · rintro ⟨m, hfiles, hpre, hq⟩
        exact ⟨(name, m), ⟨List.mem_filter.mpr ⟨hfiles, hpre⟩,
          by simpa using hq⟩, rfl⟩
  · exact pairwise_stableSortBy (fun a b => strLe b a)
      (fun a b => (strLe_total a b).symm)
      (fun a b c h1 h2 => strLe_trans c b a h2 h1) _

/-- C6, counterexample: the row appended by `log_could_access` carries the
raw username, not the resolved display name required by the claim — here
account "alice" has display name "Alice Liddell" but the appended row tail is
`["alice"]`. -/
theorem C6_counterexample :
    log_could_access ["alice:ssh-rsa AAA"] [⟨"alice", "Alice Liddell,x"⟩] =
      ["alice"] ∧
    resolve_real_name [⟨"alice", "Alice Liddell,x"⟩] "alice" =
      "Alice Liddell" ∧
    ("alice" : String) ≠ "Alice Liddell" := by
  refine ⟨by decide, by decide, by decide⟩

/-- C6, amended: `log_could_access` appends exactly one CSV row
`[timestamp, human_timestamp, user_1, user_2, …]` whose trailing fields are
the *raw usernames* (not resolved display names) of the accounts whose
username appears as the first colon-delimited field of some key-file line,
with duplicate usernames suppressed: the trailing fields contain a username
exactly when it names a password-database account in the key-holder set,
and contain no duplicates. -/
theorem C6_log_could_access_row (keysLines : List String)
    (passwordDb : List PwEntry) :
    (log_could_access keysLines passwordDb).Nodup ∧
    ∀ u, u ∈ log_could_access keysLines passwordDb ↔
      ((∃ e ∈ passwordDb, e.pw_name = u) ∧ u ∈ usersWithKeys keysLines) := by
  suffices hgen : ∀ (db : List PwEntry) (acc : List String), acc.Nodup →
      (db.foldl (fun users e =>
        if e.pw_name ∈ usersWithKeys keysLines ∧ e.pw_name ∉ users then
          users ++ [e.pw_name]
        else users) acc).Nodup ∧
      ∀ u, u ∈ db.foldl (fun users e =>
          if e.pw_name ∈ usersWithKeys keysLines ∧ e.pw_name ∉ users then
            users ++ [e.pw_name]
          else users) acc ↔
        u ∈ acc ∨ ((∃ e ∈ db, e.pw_name = u) ∧ u ∈ usersWithKeys keysLines) by
    obtain ⟨h1, h2⟩ := hgen passwordDb [] (by simp)
    refine ⟨h1, fun u => (h2 u).trans ?_⟩
    simp
  intro db
  induction db with
  | nil => intro acc hacc; simpa using hacc
  | cons e db' ih =>
    intro acc hacc
    simp only [List.foldl_cons]
    by_cases hc : e.pw_name ∈ usersWithKeys keysLines ∧ e.pw_name ∉ acc
    · have hnodup : (acc ++ [e.pw_name]).Nodup := by
        simp [List.nodup_append, hacc, hc.2]
      obtain ⟨h1, h2⟩ := ih (acc ++ [e.pw_name]) hnodup
      rw [if_pos hc]
      refine ⟨h1, fun u => (h2 u).trans ?_⟩
      simp only [List.mem_append, List.mem_singleton]
      constructor
      · rintro ((hu | hu) | ⟨⟨x, hx, rfl⟩, huk⟩)
        · exact Or.inl hu
        · subst hu
          exact Or.inr ⟨⟨e, by simp, rfl⟩, hc.1⟩
        · exact Or.inr ⟨⟨x, by simp [hx], rfl⟩, huk⟩
      · rintro (hu | ⟨⟨x, hx, rfl⟩, huk⟩)
        · exact Or.inl (Or.inl hu)
        · rcases List.mem_cons.mp hx with rfl | hx'
          · exact Or.inl (Or.inr rfl)
          · exact Or.inr ⟨⟨x, hx', rfl⟩, huk⟩
    · rw [if_neg hc]
      obtain ⟨h1, h2⟩ := ih acc hacc
      refine ⟨h1, fun u => (h2 u).trans ?_⟩
      constructor
      · rintro (hu | ⟨⟨x, hx, rfl⟩, huk⟩)
        · exact Or.inl hu
        · exact Or.inr ⟨⟨x, by simp [hx], rfl⟩, huk⟩
      · rintro (hu | ⟨⟨x, hx, rfl⟩, huk⟩)
        · exact Or.inl hu
        · rcases List.mem_cons.mp hx with rfl | hx'
          · rcases not_and_or.mp hc with h | h
            · exact absurd huk h
            · exact Or.inl (not_not.mp h)
          · exact Or.inr ⟨⟨x, hx', rfl⟩, huk⟩

/-- Witness for C6: the amended theorem applied at a concrete input. -/
theorem C6_witness :
    ("alice" ∈ log_could_access ["alice:k", "dave:k"]
        [⟨"bob", "Bob"⟩, ⟨"alice", "Alice Liddell,x"⟩]) ∧
    ¬ ("bob" ∈ log_could_access ["alice:k", "dave:k"]
        [⟨"bob", "Bob"⟩, ⟨"alice", "Alice Liddell,x"⟩]) := by
  constructor
  · exact ((C6_log_could_access_row ["alice:k", "dave:k"]
      [⟨"bob", "Bob"⟩, ⟨"alice", "Alice Liddell,x"⟩]).2 "alice").mpr
      ⟨⟨⟨"alice", "Alice Liddell,x"⟩, by decide, rfl⟩, by decide⟩
  · intro hmem
    have h := ((C6_log_could_access_row ["alice:k", "dave:k"]
      [⟨"bob", "Bob"⟩, ⟨"alice", "Alice Liddell,x"⟩]).2 "bob").mp hmem
    exact absurd h.2 (by decide)

/-- C7: `resolve_real_name` never fails (it is a total function): when the
password-database lookup succeeds and the first comma-separated segment of
the descriptive (GECOS) field is non-empty, it returns that segment;
otherwise — lookup miss, or empty first segment — it returns exactly
`"<username> (real name not found)"`. -/
theorem C7_resolve_real_name_fallback (passwordDb : List PwEntry)
    (user : String) :
    (∀ e, passwordDb.find? (fun x => x.pw_name == user) = some e →
        firstFieldSep ',' e.pw_gecos ≠ "" →
        resolve_real_name passwordDb user = firstFieldSep ',' e.pw_gecos) ∧
    (∀ e, passwordDb.find? (fun x => x.pw_name == user) = some e →
        firstFieldSep ',' e.pw_gecos = "" →
        resolve_real_name passwordDb user =
          user ++ " (real name not found)") ∧
    (passwordDb.find? (fun x => x.pw_name == user) = none →
        resolve_real_name passwordDb user =
          user ++ " (real name not found)") := by
  refine ⟨?_, ?_, ?_⟩
  · intro e he hne
    simp [resolve_real_name, he, hne]
  · intro e he hemp
    simp [resolve_real_name, he, hemp]
  · intro hnone
    simp [resolve_real_name, hnone]

/-- Witness for C7: all three branches at concrete inputs. -/
theorem C7_witness :
    resolve_real_name [⟨"alice", "Alice Liddell,room"⟩] "alice" =
      "Alice Liddell" ∧
    resolve_real_name [⟨"bob", ",x"⟩] "bob" = "bob (real name not found)" ∧
    resolve_real_name [] "carol" = "carol (real name not found)" :=
  ⟨((C7_resolve_real_name_fallback [⟨"alice", "Alice Liddell,room"⟩]
      "alice").1 ⟨"alice", "Alice Liddell,room"⟩ (by decide)
      (by decide)).trans (by decide),
   (C7_resolve_real_name_fallback [⟨"bob", ",x"⟩] "bob").2.1
      ⟨"bob", ",x"⟩ (by decide) (by decide),
   (C7_resolve_real_name_fallback [] "carol").2.2 (by decide)⟩

/-- C8: with zero qualifying entries (user count 0), the text renderer emits
exactly the single "no access" sentence carrying the day count and the
window start; `sort_and_merge` of the empty record map yields zero merged
intervals; and the CSV renderer still emits the full `days`-column header
row with zero data rows. -/
theorem C8_empty_window (queryType : String) (records : List DayRecord)
    (recordMap : List (Int × DayRecord)) (days : ℕ) (queryTime : Int)
    (passwordDb : List PwEntry) :
    output_text_results queryType 0 records days queryTime passwordDb =
        [TextLine.noAccess queryType days queryTime] ∧
    sort_and_merge [] = [] ∧
    (output_csv_results [] recordMap days queryTime passwordDb).rows = [] ∧
    (output_csv_results [] recordMap days queryTime passwordDb).header.length
        = days := by
  refine ⟨?_, rfl, rfl, ?_⟩
  · simp [output_text_results]
  · show (csvDates days queryTime).length = days
    unfold csvDates
    rw [List.length_map, List.length_range]

/-- C3: for every aggregation result, the CSV renderer's header holds exactly
`days` consecutive dates — column `i` is `today - days + (i+1)`, so the last
column is `today` — regardless of how many dates had activity; a user's row
cell is `"*"` exactly when the user appears in that date's DayRecord and
blank otherwise, so the number of marked cells in a user's row equals the
number of header dates whose record contains the user (in particular a user
present on exactly one header date has exactly one marked cell); and there
is one data row per listed user. -/
theorem C3_csv_matrix (users : List String)
    (records : List (Int × DayRecord)) (days : ℕ) (today : Int)
    (passwordDb : List PwEntry) :
    (output_csv_results users records days (queryTimeFor today days)
        passwordDb).header = csvDates days (queryTimeFor today days) ∧
    (csvDates days (queryTimeFor today days)).length = days ∧
    (∀ i : ℕ, i < days → (csvDates days (queryTimeFor today days))[i]? =
        some (today - days + ((i : Int) + 1))) ∧
    (0 < days →
        (csvDates days (queryTimeFor today days)).getLast? = some today) ∧
    (∀ user d, csvCell user d records = "*" ↔
        presentOn user d records = true) ∧
    (∀ user d, csvCell user d records = "" ↔
        presentOn user d records = false) ∧
    (∀ user dates, (csvRow user dates records).tail.count "*" =
        dates.countP (fun d => presentOn user d records)) ∧
    (output_csv_results users records days (queryTimeFor today days)
        passwordDb).rows.length = users.length := by
  refine ⟨rfl, ?_, ?_, ?_, ?_, ?_, ?_, ?_⟩
  · unfold csvDates
    rw [List.length_map, List.length_range]
  · intro i hi
    rw [csvDates_getElem? days i _ hi, dateOf_queryTimeFor]
  · intro hpos
    have hlen : (csvDates days (queryTimeFor today days)).length = days := by
      unfold csvDates
      rw [List.length_map, List.length_range]
    rw [List.getLast?_eq_getElem?, hlen,
      csvDates_getElem? days (days - 1) _ (by omega), dateOf_queryTimeFor]
    exact congrArg some (by omega)
  · intro user d
    have h := csvCell_beq_star user d records
    constructor
    · intro hc
      rw [hc] at h
      rw [← h]
      rfl
    · intro hp
      rw [hp] at h
      rcases csvCell_eq_star_or_empty user d records with hs | he
      · exact hs
      · rw [he] at h
        exact absurd h (by decide)
  · intro user d
    have h := csvCell_beq_star user d records
    constructor
    · intro hc
      rw [hc] at h
      rw [← h]
      rfl
    · intro hp
      rw [hp] at h
      rcases csvCell_eq_star_or_empty user d records with hs | he
      · rw [hs] at h
        exact absurd h (by decide)
      · exact he
  · intro user dates
    show (dates.map (fun d => csvCell user d records)).count "*" =
      dates.countP (fun d => presentOn user d records)
    unfold List.count
    rw [List.countP_map]
    refine List.countP_congr ?_
    intro d _
    rw [Function.comp_apply, csvCell_beq_star user d records]
  · show (stableSortBy listStrLe _).length = users.length
    rw [length_stableSortBy, List.length_map, List.length_map]

/-- Witness for C3 at a concrete 3-day window with one user active on one
header date. -/
theorem C3_witness :
    (csvDates 3 (queryTimeFor 3 3)).length = 3 ∧
    (csvDates 3 (queryTimeFor 3 3))[1]? = some 2 ∧
    (csvDates 3 (queryTimeFor 3 3)).getLast? = some 3 ∧
    (csvRow "u" (csvDates 3 (queryTimeFor 3 3))
        [(1, ⟨1, 1, ["u"]⟩)]).tail.count "*" = 1 := by
  have h := C3_csv_matrix ["u"] [(1, ⟨1, 1, ["u"]⟩)] 3 3 []
  refine ⟨h.2.1, (h.2.2.1 1 (by decide)).trans (by decide),
    h.2.2.2.1 (by decide),
    (h.2.2.2.2.2.2.1 "u" (csvDates 3 (queryTimeFor 3 3))).trans (by decide)⟩

/-- C10: a concrete run of could-mode CSV output in which a user receives a
data row whose cells are all blank: with a 2-day window ending at day 2,
`query_time` is midnight starting day 0, the header's columns are days 1 and
2, and an entry 1 second after `query_time` (still on day 0) puts its user
into the user set — producing a row — while its date is not among the header
columns, so no cell is marked. -/
theorem C10_blank_csv_row :
    queryTimeFor 2 2 = 0 ∧
    queryTimeFor 2 2 < 1000000 ∧
    dateOf 1000000 = 0 ∧
    couldAggregate [⟨1000000, ["u"]⟩] (queryTimeFor 2 2) =
      ⟨["u"], [(0, ⟨0, 0, ["u"]⟩)]⟩ ∧
    output_csv_results ["u"] [(0, ⟨0, 0, ["u"]⟩)] 2 (queryTimeFor 2 2) [] =
      ⟨[1, 2], [["u (real name not found)", "", ""]]⟩ := by
  refine ⟨by decide, by decide, by decide, by decide, by decide⟩

end AccessAudit
